import Mathlib

/-!
Verification of src/src/model_training/process_data.py, a data-processing
pipeline for aerial-imagery semantic segmentation.  The Python module is
embedded shallowly: numpy's per-pixel masked assignments become per-pixel
Lean functions lifted over nested lists, the tiler becomes a function over
list-of-list images, and the I/O layer of the partitioner becomes a pure
event trace.
-/

namespace ProcessData

/-- An RGB pixel: three 8-bit channel values modelled as naturals. -/
abbrev RGB := Nat × Nat × Nat

/-- A 2D image with pixel type alpha, as a list of rows. -/
abbrev Image (α : Type) := List (List α)

/-- A batch of images (leading batch dimension), mirroring the numpy
arrays of shape batch x rows x cols (x channels). -/
abbrev Batch (α : Type) := List (Image α)

/-- The ordered label key table from the source: class index to RGB triple
(Impervious, Building, Low vegetation, Tree, Car, Clutter). -/
def label_keys : List RGB :=
  [(255, 255, 255), (0, 0, 255), (0, 255, 255), (0, 255, 0), (255, 255, 0), (255, 0, 0)]

/-- Number of labels, as in the source: nb_labels = len(label_keys). -/
def nb_labels : Nat := label_keys.length

/-- Per-pixel semantics of rgb_to_label_batch: the label array starts at 0
and, for each (label, key) in enumeration order, pixels equal to the key
are overwritten with that label.  Sequential masked assignment is a fold
over the enumerated table. -/
def rgb_to_label_pixel (p : RGB) : Nat :=
  label_keys.enum.foldl (fun acc lk => if p = lk.2 then lk.1 else acc) 0

/-- Embedding of rgb_to_label_batch: the masked numpy updates act
independently on every pixel of the batch. -/
def rgb_to_label_batch (b : Batch RGB) : Batch Nat :=
  b.map (List.map (List.map rgb_to_label_pixel))

/-- Per-pixel semantics of label_to_one_hot_batch: channel l of the one-hot
vector is set to 1 exactly where the label equals l, starting from zeros. -/
def label_to_one_hot_pixel (v : Nat) : List Nat :=
  (List.range nb_labels).map (fun l => if v = l then 1 else 0)

/-- Embedding of label_to_one_hot_batch. -/
def label_to_one_hot_batch (b : Batch Nat) : Batch (List Nat) :=
  b.map (List.map (List.map label_to_one_hot_pixel))

/-- Per-pixel semantics of label_to_rgb_batch: the rgb array starts at
zeros and, for each (label, key) in order, pixels whose label equals that
label are overwritten with the key. -/
def label_to_rgb_pixel (v : Nat) : RGB :=
  label_keys.enum.foldl (fun acc lk => if v = lk.1 then lk.2 else acc) (0, 0, 0)

/-- Embedding of label_to_rgb_batch. -/
def label_to_rgb_batch (b : Batch Nat) : Batch RGB :=
  b.map (List.map (List.map label_to_rgb_pixel))

/-- np.argmax over a vector: index of the first occurrence of the maximum
value (ties broken by lowest index).  Empty input is irrelevant here. -/
def argmax : List Nat → Nat
  | [] => 0
  | x :: xs =>
    (xs.enum.foldl
      (fun best cur => if best.2 < cur.2 then (cur.1 + 1, cur.2) else best)
      (0, x)).1

/-- Embedding of one_hot_to_label_batch: np.argmax along the channel axis. -/
def one_hot_to_label_batch (b : Batch (List Nat)) : Batch Nat :=
  b.map (List.map (List.map argmax))

/-- Position of the first element of the list equal to p, if any. -/
def firstMatch (p : RGB) : List RGB → Option Nat
  | [] => none
  | k :: ks => if p = k then some 0 else (firstMatch p ks).map (· + 1)

/-- Specification-side decoder for claim C1: the index of the FIRST key in
the table whose RGB triple equals the pixel, and 0 when no key matches. -/
def specRgbToLabelPixel (p : RGB) : Nat :=
  (firstMatch p label_keys).getD 0

/-- Python range(0, stop, step): the multiples of step below stop, in
increasing order.  The count (stop + step - 1) / step is the ceiling of
stop / step. -/
def pyRange (stop step : Nat) : List Nat :=
  (List.range ((stop + step - 1) / step)).map (· * step)

/-- The numpy slice im[row : row + size, col : col + size] on a
list-of-rows image. -/
def slice2d (im : Image α) (row col size : Nat) : Image α :=
  ((im.drop row).take size).map (fun r => (r.drop col).take size)

/-- Number of rows: im.shape[0]. -/
def imRows (im : Image α) : Nat := im.length

/-- Number of columns: im.shape[1] (the length of the first row, as in a
rectangular numpy array). -/
def imCols (im : Image α) : Nat := (im.headD []).length

/-- Embedding of tile_image: iterate row offsets range(0, rows, stride),
then column offsets range(0, cols, stride), and append the slice whenever
the full window row + size <= rows and col + size <= cols fits. -/
def tile_image (im : Image α) (size stride : Nat) : List (Image α) :=
  (pyRange (imRows im) stride).flatMap (fun row =>
    (pyRange (imCols im) stride).filterMap (fun col =>
      if row + size ≤ imRows im ∧ col + size ≤ imCols im then
        some (slice2d im row col size)
      else none))

/-- Specification-side offsets for claim C2: all r in 0, t, 2t, ... with
r + size <= dim, in increasing order. -/
def claimOffsets (dim size stride : Nat) : List Nat :=
  (List.range (dim + 1)).filter (fun r => decide (r % stride = 0 ∧ r + size ≤ dim))

/-- Specification-side tiling for claim C2: the sub-windows at every valid
(row, col) offset pair, in row-major order. -/
def claimTiles (im : Image α) (size stride : Nat) : List (Image α) :=
  (claimOffsets (imRows im) size stride).flatMap (fun row =>
    (claimOffsets (imCols im) size stride).map (fun col => slice2d im row col size))

/-- A constant rows x cols image, for concrete instances. -/
def mkImage (rows cols : Nat) (p : α) : Image α :=
  List.replicate rows (List.replicate cols p)

/-- The train ratio constant from the source. -/
def train_ratio : ℚ := 3 / 4

/-- Embedding of the split in process_data: nb_train_files =
int(nb_files * train_ratio).  Python's int() truncates toward zero, which
for the non-negative products arising here is the floor. -/
def nb_train_files (nb_files : Nat) (ratio : ℚ) : Nat :=
  (⌊(nb_files : ℚ) * ratio⌋).toNat

/-- Embedding of the partition split in process_data:
train = file_names[0 : nb_train_files], validation = file_names[nb_train_files :]. -/
def split_file_names (file_names : List String) (ratio : ℚ) :
    List String × List String :=
  let nb := nb_train_files file_names.length ratio
  (file_names.take nb, file_names.drop nb)

/-- Role of a written tile file: the input or the output directory. -/
inductive Role where
  | input : Role
  | output : Role
deriving DecidableEq, Repr

/-- One file written by the partitioner: the role directory, the numeric
file name stem (saved as that number with a png extension), and the tile
contents. -/
structure WriteEvent (α : Type) where
  role : Role
  name : Nat
  tile : Image α
deriving DecidableEq, Repr

/-- The body of the innermost loop of _process_data: under the current
proc_file_index, write the input tile to the input directory and the
output tile to the output directory, both named by that index, then
increment the index. -/
def writePair (acc2 : Nat × List (WriteEvent α)) (p : Image α × Image α) :
    Nat × List (WriteEvent α) :=
  (acc2.1 + 1,
   acc2.2 ++ [⟨Role.input, acc2.1, p.1⟩, ⟨Role.output, acc2.1, p.2⟩])

/-- Embedding of the nested _process_data loop: proc_file_index starts at
0 per partition; for each (input image, output image) file pair, both are
tiled and the tile lists zipped; each zipped pair writes the input tile
then the output tile under the current index, which then increments. -/
def _process_data (files : List (Image α × Image α)) (size stride : Nat) :
    List (WriteEvent α) :=
  (files.foldl (fun acc fp =>
    let input_tiles := tile_image fp.1 size stride
    let output_tiles := tile_image fp.2 size stride
    (input_tiles.zip output_tiles).foldl writePair acc)
    ((0 : Nat), ([] : List (WriteEvent α)))).2

/-- The zipped tile pairs of all file pairs of a partition, in processing
order: for each file pair, the tiles of the input image and of the output
image at the same list position. -/
def allTilePairs (files : List (Image α × Image α)) (size stride : Nat) :
    List (Image α × Image α) :=
  files.flatMap (fun fp => (tile_image fp.1 size stride).zip (tile_image fp.2 size stride))

/-- The write events a list of tile pairs produces when the counter
starts at start: for the k-th pair, an input event and an output event
both named start + k, in that order. -/
def pairEvents (start : Nat) : List (Image α × Image α) → List (WriteEvent α)
  | [] => []
  | p :: ps =>
    ⟨Role.input, start, p.1⟩ :: ⟨Role.output, start, p.2⟩ :: pairEvents (start + 1) ps

/-- Outcome classification for an attempted directory creation, used to
model os.makedirs behaviour under the try/except wrapper. -/
inductive DirCreateError where
  | alreadyExists : DirCreateError
  | permissionDenied : DirCreateError
  | otherFailure : DirCreateError
deriving DecidableEq, Repr

/-- Embedding of the source helper that wraps makedirs in a bare
try/except: given the outcome of the underlying makedirs call, it returns
success no matter what, because the except clause catches every exception
and does nothing. -/
def _makedirs (result : Except DirCreateError Unit) : Except DirCreateError Unit :=
  match result with
  | Except.ok _ => Except.ok ()
  | Except.error _ => Except.ok ()

/-- The INPUT directory-name constant from the source. -/
def INPUT : String := "input"

/-- The OUTPUT directory-name constant from the source. -/
def OUTPUT : String := "output"

/-- os.path.join on two components. -/
def pathJoin (a b : String) : String := a ++ "/" ++ b

/-- The configuration with which a Keras directory generator is built in
make_data_generator: the directory it reads, the batch size, and the
shuffle / augment / scale flags. -/
structure GenConfig where
  path : String
  batch_size : Nat
  shuffle : Bool
  augment : Bool
  scale : Bool
deriving DecidableEq, Repr

/-- Embedding of make_data_generator, reduced to the configuration it
passes to the external library (its internals are out of scope). -/
def make_data_generator (path : String) (batch_size : Nat)
    (shuffle augment scale : Bool) : GenConfig :=
  ⟨path, batch_size, shuffle, augment, scale⟩

/-- Embedding of rgb_to_one_hot_batch: the composition from the source. -/
def rgb_to_one_hot_batch (b : Batch RGB) : Batch (List Nat) :=
  label_to_one_hot_batch (rgb_to_label_batch b)

/-- Embedding of make_input_output_generator, reduced to the pair of
generator configurations it builds.  Mirrors the source exactly: the
input generator reads input_path with shuffle, augment and scale; the
output generator is built with shuffle and augment but no scaling, and -
as in the source - is passed input_path, while the computed output_path
is never used.  The yielded output batches are rgb_to_one_hot_batch of
the batches drawn from that second generator. -/
def make_input_output_generator (base_path : String) (batch_size : Nat) :
    GenConfig × GenConfig :=
  let input_path := pathJoin base_path INPUT
  let input_gen := make_data_generator input_path batch_size true true true
  let output_path := pathJoin base_path OUTPUT
  let _unused := output_path
  let _output_gen := make_data_generator input_path batch_size true true false
  (input_gen, _output_gen)

/-- A fixed example pixel. -/
def pixelEx : RGB := ((0 : Nat), 0, 0)

/-- The example file-name list with four entries. -/
def fnamesEx : List String := ["a.tif", "b.tif", "c.tif", "d.tif"]

/-- An example base directory for a partition. -/
def basePathEx : String := "/opt/data/processed_data/vaihingen/train"

end ProcessData

namespace ProcessData

/-- A map whose function fixes every member of the list is the identity. -/
theorem list_map_id_of_mem {α : Type} {f : α → α} :
    ∀ l : List α, (∀ x ∈ l, f x = x) → l.map f = l := by
  intro l h
  induction l with
  | nil => rfl
  | cons a t ih =>
    simp only [List.map_cons]
    rw [h a (List.mem_cons_self a t), ih (fun x hx => h x (List.mem_cons_of_mem a hx))]

/-- Lifting a pointwise left inverse through three nested map levels
(batch, rows, row) gives a left inverse on batches. -/
theorem batch_round_trip {α β : Type} (f : α → β) (g : β → α)
    (b : List (List (List α))) (h : ∀ x ∈ b, ∀ y ∈ x, ∀ v ∈ y, g (f v) = v) :
    (b.map (List.map (List.map f))).map (List.map (List.map g)) = b := by
  rw [List.map_map]
  apply list_map_id_of_mem
  intro x hx
  simp only [Function.comp_apply, List.map_map]
  apply list_map_id_of_mem
  intro y hy
  simp only [Function.comp_apply, List.map_map]
  apply list_map_id_of_mem
  intro v hv
  exact h x hx y hy v hv

/-- The fold of rgb_to_label_pixel (last matching key wins) agrees with
the specification decoder (first matching key wins) because the six keys
of the table are pairwise distinct, so at most one key can match. -/
theorem rgb_to_label_pixel_eq_spec (p : RGB) :
    rgb_to_label_pixel p = specRgbToLabelPixel p := by
  have hfold : rgb_to_label_pixel p =
      (if p = ((255 : Nat), 0, 0) then 5 else
        if p = ((255 : Nat), 255, 0) then 4 else
          if p = ((0 : Nat), 255, 0) then 3 else
            if p = ((0 : Nat), 255, 255) then 2 else
              if p = ((0 : Nat), 0, 255) then 1 else
                if p = ((255 : Nat), 255, 255) then 0 else 0) := rfl
  rw [hfold]
  by_cases h0 : p = ((255 : Nat), 255, 255) <;> by_cases h1 : p = ((0 : Nat), 0, 255) <;>
    by_cases h2 : p = ((0 : Nat), 255, 255) <;> by_cases h3 : p = ((0 : Nat), 255, 0) <;>
      by_cases h4 : p = ((255 : Nat), 255, 0) <;> by_cases h5 : p = ((255 : Nat), 0, 0) <;>
        simp_all [-Prod.mk_zero_zero, specRgbToLabelPixel, firstMatch, label_keys]

/-- C1: rgb_to_label_batch assigns to each pixel the index of the first
key of the label key table whose RGB triple exactly equals that pixel
(specRgbToLabelPixel), and pixels matching no key get index 0. -/
theorem c1_rgb_to_label_first_match :
    (∀ b : Batch RGB,
      rgb_to_label_batch b = b.map (List.map (List.map specRgbToLabelPixel)))
    ∧ (∀ p : RGB, p ∉ label_keys → specRgbToLabelPixel p = 0) := by
  constructor
  · intro b
    rw [rgb_to_label_batch, funext rgb_to_label_pixel_eq_spec]
  · intro p hp
    simp only [label_keys, List.mem_cons, List.not_mem_nil, or_false, not_or] at hp
    obtain ⟨h0, h1, h2, h3, h4, h5⟩ := hp
    simp [-Prod.mk_zero_zero, specRgbToLabelPixel, firstMatch, label_keys,
      h0, h1, h2, h3, h4, h5]

/-- Witness for C1 at a concrete batch: the pixel (0, 0, 255) is the
second key (index 1) and the pixel (9, 9, 9) matches no key. -/
theorem c1_witness :
    rgb_to_label_batch [[[((0 : Nat), 0, 255), (9, 9, 9)]]] = [[[1, 0]]] ∧
    specRgbToLabelPixel (9, 9, 9) = 0 := by
  constructor
  · rw [c1_rgb_to_label_first_match.1 [[[((0 : Nat), 0, 255), (9, 9, 9)]]]]
    decide
  · exact c1_rgb_to_label_first_match.2 (9, 9, 9) (by decide)

/-- C3: decoding after encoding is the identity on label batches whose
indices all lie below nb_labels. -/
theorem c3_rgb_label_round_trip (b : Batch Nat)
    (h : ∀ im ∈ b, ∀ row ∈ im, ∀ v ∈ row, v < nb_labels) :
    rgb_to_label_batch (label_to_rgb_batch b) = b := by
  have hp : ∀ v < nb_labels, rgb_to_label_pixel (label_to_rgb_pixel v) = v := by decide
  exact batch_round_trip _ _ b (fun x hx y hy v hv => hp v (h x hx y hy v hv))

/-- Witness for C3 at a concrete valid label batch. -/
theorem c3_witness :
    (∀ im ∈ [[[0, 5, 3]]], ∀ row ∈ im, ∀ v ∈ row, v < nb_labels) ∧
    rgb_to_label_batch (label_to_rgb_batch [[[0, 5, 3]]]) = [[[0, 5, 3]]] :=
  ⟨by decide, c3_rgb_label_round_trip [[[0, 5, 3]]] (by decide)⟩

/-- C4: one-hot decoding (argmax with first-occurrence tie-break) after
one-hot encoding is the identity on label batches whose indices all lie
below nb_labels. -/
theorem c4_one_hot_round_trip (b : Batch Nat)
    (h : ∀ im ∈ b, ∀ row ∈ im, ∀ v ∈ row, v < nb_labels) :
    one_hot_to_label_batch (label_to_one_hot_batch b) = b := by
  have hp : ∀ v < nb_labels, argmax (label_to_one_hot_pixel v) = v := by decide
  exact batch_round_trip _ _ b (fun x hx y hy v hv => hp v (h x hx y hy v hv))

/-- Witness for C4 at a concrete valid label batch. -/
theorem c4_witness :
    (∀ im ∈ [[[2, 0, 5]]], ∀ row ∈ im, ∀ v ∈ row, v < nb_labels) ∧
    one_hot_to_label_batch (label_to_one_hot_batch [[[2, 0, 5]]]) = [[[2, 0, 5]]] :=
  ⟨by decide, c4_one_hot_round_trip [[[2, 0, 5]]] (by decide)⟩

/-- C7: label_to_one_hot_batch is total (it is a Lean function, so no
exception can be raised); an out-of-range pixel index yields the all-zero
length nb_labels vector, and an in-range index yields a vector with a
single 1 at that index and 0 elsewhere. -/
theorem c7_one_hot_out_of_range :
    (∀ b : Batch Nat,
      label_to_one_hot_batch b = b.map (List.map (List.map label_to_one_hot_pixel)))
    ∧ (∀ v, nb_labels ≤ v → label_to_one_hot_pixel v = List.replicate nb_labels 0)
    ∧ (∀ v, v < nb_labels → ∀ l, l < nb_labels →
        (label_to_one_hot_pixel v).getD l 0 = if l = v then 1 else 0) := by
  refine ⟨fun b => rfl, ?_, ?_⟩
  · intro v hv
    rw [List.eq_replicate_iff]
    refine ⟨by simp [label_to_one_hot_pixel], ?_⟩
    intro x hx
    simp only [label_to_one_hot_pixel, List.mem_map, List.mem_range] at hx
    obtain ⟨l, hl, rfl⟩ := hx
    have hne : v ≠ l := by omega
    simp [hne]
  · decide

/-- Witness for C7: index 7 is out of range for the six labels and maps
to the zero vector; index 2 is in range and its vector is 1 exactly at
channel 2. -/
theorem c7_witness :
    (nb_labels ≤ 7 ∧ label_to_one_hot_pixel 7 = List.replicate nb_labels 0) ∧
    (2 < nb_labels ∧ 1 < nb_labels ∧
      (label_to_one_hot_pixel 2).getD 1 0 = if 1 = 2 then 1 else 0) :=
  ⟨⟨by decide, c7_one_hot_out_of_range.2.1 7 (by decide)⟩,
   ⟨by decide, by decide, c7_one_hot_out_of_range.2.2 2 (by decide) 1 (by decide)⟩⟩

/-- k is below the ceiling of stop / step exactly when k * step is below
stop. -/
theorem lt_ceilDiv_iff {k stop step : Nat} (hstep : 1 ≤ step) :
    k < (stop + step - 1) / step ↔ k * step < stop := by
  have h : (k + 1) * step = k * step + step := by ring
  rw [Nat.lt_iff_add_one_le, Nat.le_div_iff_mul_le hstep, h]
  generalize k * step = m
  omega

/-- Membership in the Python range of multiples of step below stop. -/
theorem mem_pyRange {stop step r : Nat} (hstep : 1 ≤ step) :
    r ∈ pyRange stop step ↔ step ∣ r ∧ r < stop := by
  simp only [pyRange, List.mem_map, List.mem_range]
  constructor
  · rintro ⟨k, hk, rfl⟩
    exact ⟨dvd_mul_left step k, (lt_ceilDiv_iff hstep).mp hk⟩
  · rintro ⟨⟨c, rfl⟩, hr⟩
    exact ⟨c, (lt_ceilDiv_iff hstep).mpr (by rwa [mul_comm] at hr), mul_comm c step⟩

/-- The Python range is strictly increasing. -/
theorem pyRange_sorted (stop step : Nat) (hstep : 1 ≤ step) :
    (pyRange stop step).Pairwise (· < ·) := by
  unfold pyRange
  exact List.Pairwise.map _
    (fun a b h => (Nat.mul_lt_mul_right hstep).mpr h) (List.pairwise_lt_range _)

/-- The specification offset list is strictly increasing. -/
theorem claimOffsets_sorted (dim size stride : Nat) :
    (claimOffsets dim size stride).Pairwise (· < ·) :=
  (List.pairwise_lt_range _).filter _

/-- Membership in the specification offset list. -/
theorem mem_claimOffsets {dim size stride r : Nat} :
    r ∈ claimOffsets dim size stride ↔ r % stride = 0 ∧ r + size ≤ dim := by
  simp only [claimOffsets, List.mem_filter, List.mem_range, decide_eq_true_eq]
  constructor
  · exact fun h => h.2
  · intro h
    exact ⟨Nat.lt_succ_of_le (le_trans (Nat.le_add_right r size) h.2), h⟩

/-- The offsets the source iterates over and keeps (multiples of stride
below dim whose window fits) are exactly the specification offsets. -/
theorem offsets_eq {dim size stride : Nat} (hsize : 1 ≤ size) (hstride : 1 ≤ stride) :
    (pyRange dim stride).filter (fun r => decide (r + size ≤ dim)) =
      claimOffsets dim size stride := by
  haveI : IsAntisymm Nat (· < ·) := ⟨fun a b h1 h2 => absurd h2 (Nat.lt_asymm h1)⟩
  have hs1 : ((pyRange dim stride).filter
      (fun r => decide (r + size ≤ dim))).Pairwise (· < ·) :=
    (pyRange_sorted dim stride hstride).filter _
  have hs2 := claimOffsets_sorted dim size stride
  apply List.eq_of_perm_of_sorted ?_ hs1 hs2
  apply (List.perm_ext_iff_of_nodup (hs1.imp fun h => Nat.ne_of_lt h)
    (hs2.imp fun h => Nat.ne_of_lt h)).mpr
  intro a
  simp only [List.mem_filter, mem_pyRange hstride, decide_eq_true_eq, mem_claimOffsets,
    Nat.dvd_iff_mod_eq_zero]
  constructor
  · rintro ⟨⟨hm, _⟩, hle⟩
    exact ⟨hm, hle⟩
  · rintro ⟨hm, hle⟩
    exact ⟨⟨hm, lt_of_lt_of_le (Nat.lt_add_of_pos_right hsize) hle⟩, hle⟩

/-- filterMap of an if-some-none function is filter then map. -/
theorem filterMap_ite_eq_filter_map {α β : Type} (p : α → Prop) [DecidablePred p]
    (f : α → β) (l : List α) :
    l.filterMap (fun a => if p a then some (f a) else none)
      = (l.filter (fun a => decide (p a))).map f := by
  induction l with
  | nil => rfl
  | cons a t ih =>
    by_cases h : p a <;>
      simp [List.filterMap_cons, List.filter_cons, h, ih]

/-- flatMap only depends on the function on members. -/
theorem flatMap_congr {α β : Type} {f g : α → List β} :
    ∀ l : List α, (∀ a ∈ l, f a = g a) → l.flatMap f = l.flatMap g := by
  intro l h
  induction l with
  | nil => rfl
  | cons a t ih =>
    simp only [List.flatMap_cons]
    rw [h a (List.mem_cons_self a t), ih (fun x hx => h x (List.mem_cons_of_mem a hx))]

/-- Elements on which the function is empty can be filtered out of a
flatMap. -/
theorem flatMap_eq_flatMap_filter {α β : Type} (p : α → Prop) [DecidablePred p]
    {f : α → List β} :
    ∀ l : List α, (∀ a ∈ l, ¬ p a → f a = []) →
      l.flatMap f = (l.filter (fun a => decide (p a))).flatMap f := by
  intro l h
  induction l with
  | nil => rfl
  | cons a t ih =>
    have ht := ih (fun x hx => h x (List.mem_cons_of_mem a hx))
    by_cases hp : p a <;>
      simp [List.flatMap_cons, List.filter_cons, hp, ht,
        h a (List.mem_cons_self a t)]

set_option maxRecDepth 20000 in
/-- C2: tile_image returns exactly the sub-windows at the offsets that are
multiples of the stride whose full window fits in the image, in row-major
order with no padding and no partial tile; concretely a 200 x 200 image
with size 200 and stride 100 yields 1 tile, a 300 x 300 image yields the
4 tiles at offsets (0,0), (0,100), (100,0), (100,100), and a 250 x 250
image yields 1 tile. -/
theorem c2_tile_image_spec :
    (∀ (α : Type) (im : Image α) (size stride : Nat), 1 ≤ size → 1 ≤ stride →
      tile_image im size stride = claimTiles im size stride)
    ∧ (tile_image (mkImage 200 200 pixelEx) 200 100).length = 1
    ∧ tile_image (mkImage 300 300 pixelEx) 200 100 =
        [slice2d (mkImage 300 300 pixelEx) 0 0 200,
         slice2d (mkImage 300 300 pixelEx) 0 100 200,
         slice2d (mkImage 300 300 pixelEx) 100 0 200,
         slice2d (mkImage 300 300 pixelEx) 100 100 200]
    ∧ (tile_image (mkImage 250 250 pixelEx) 200 100).length = 1 := by
  refine ⟨?_, by rfl, by rfl, by rfl⟩
  intro α im size stride hsize hstride
  unfold tile_image claimTiles
  rw [← offsets_eq hsize hstride, ← offsets_eq hsize hstride]
  rw [flatMap_eq_flatMap_filter (fun row => row + size ≤ imRows im) _ ?_]
  · apply flatMap_congr
    intro row hrow
    have hr : row + size ≤ imRows im := by
      simp only [List.mem_filter, decide_eq_true_eq] at hrow
      exact hrow.2
    have hcond : (fun col => if row + size ≤ imRows im ∧ col + size ≤ imCols im then
          some (slice2d im row col size) else none)
        = (fun col => if col + size ≤ imCols im then
            some (slice2d im row col size) else none) := by
      funext col
      by_cases h : col + size ≤ imCols im <;> simp [h, hr]
    rw [hcond, filterMap_ite_eq_filter_map]
  · intro row hrow hnrow
    simp only [List.filterMap_eq_nil_iff]
    intro col hcol
    simp [hnrow]

/-- Witness for C2, applying the characterization at the 250 x 250 image
with size 200 and stride 100. -/
theorem c2_witness :
    ((1 : Nat) ≤ 200 ∧ (1 : Nat) ≤ 100) ∧
    tile_image (mkImage 250 250 pixelEx) 200 100 =
      claimTiles (mkImage 250 250 pixelEx) 200 100 :=
  ⟨⟨by decide, by decide⟩,
   c2_tile_image_spec.1 RGB (mkImage 250 250 pixelEx) 200 100 (by decide) (by decide)⟩

/-- C5: for a non-negative ratio, the partitioner assigns exactly the
first floor(ratio * n) file names, in listing order, to train and the
rest to validation, with no reordering and no loss; with ratio 3/4 and
four files that is the first three and the last one. -/
theorem c5_split :
    (∀ (fns : List String) (r : ℚ), 0 ≤ r →
      (split_file_names fns r).1 = fns.take (⌊r * (fns.length : ℚ)⌋).toNat ∧
      (split_file_names fns r).2 = fns.drop (⌊r * (fns.length : ℚ)⌋).toNat ∧
      (split_file_names fns r).1 ++ (split_file_names fns r).2 = fns ∧
      (r ≤ 1 → (split_file_names fns r).1.length = (⌊r * (fns.length : ℚ)⌋).toNat)) ∧
    split_file_names fnamesEx train_ratio = (["a.tif", "b.tif", "c.tif"], ["d.tif"]) := by
  constructor
  · intro fns r _
    have hmul : nb_train_files fns.length r = (⌊r * (fns.length : ℚ)⌋).toNat := by
      rw [nb_train_files, mul_comm]
    refine ⟨by rw [split_file_names, hmul], by rw [split_file_names, hmul],
      List.take_append_drop _ fns, ?_⟩
    intro hr1
    rw [split_file_names, hmul, List.length_take]
    have hle : (⌊r * (fns.length : ℚ)⌋).toNat ≤ fns.length := by
      have h1 : r * (fns.length : ℚ) ≤ (fns.length : ℚ) :=
        mul_le_of_le_one_left (by positivity) hr1
      have h2 : ⌊r * (fns.length : ℚ)⌋ ≤ (fns.length : ℤ) := by
        calc ⌊r * (fns.length : ℚ)⌋ ≤ ⌊((fns.length : ℤ) : ℚ)⌋ := by
              apply Int.floor_le_floor
              push_cast
              exact h1
          _ = (fns.length : ℤ) := Int.floor_intCast _
      exact Int.toNat_le.mpr h2
    omega
  · have h3 : nb_train_files fnamesEx.length train_ratio = 3 := by
      simp [nb_train_files, train_ratio, fnamesEx]
      norm_num
      rfl
    rw [split_file_names, h3]
    rfl

/-- Witness for C5, applying the split characterization at the
four-element list with ratio 3/4. -/
theorem c5_witness :
    ((0 : ℚ) ≤ train_ratio ∧
      (split_file_names fnamesEx train_ratio).1 =
        fnamesEx.take (⌊train_ratio * (fnamesEx.length : ℚ)⌋).toNat) ∧
    split_file_names fnamesEx train_ratio = (["a.tif", "b.tif", "c.tif"], ["d.tif"]) :=
  ⟨⟨by norm_num [train_ratio],
    (c5_split.1 fnamesEx train_ratio (by norm_num [train_ratio])).1⟩,
   c5_split.2⟩

/-- Folding writePair over a pair list from counter c appends exactly the
pair events starting at c and advances the counter by the pair count. -/
theorem writeFold_eq {α : Type} (ps : List (Image α × Image α)) :
    ∀ (c : Nat) (evs : List (WriteEvent α)),
      ps.foldl writePair (c, evs) = (c + ps.length, evs ++ pairEvents c ps) := by
  induction ps with
  | nil => intro c evs; simp [pairEvents]
  | cons p t ih =>
    intro c evs
    simp only [List.foldl_cons, writePair, ih, pairEvents, List.length_cons, Prod.mk.injEq]
    exact ⟨by omega, by simp⟩

/-- Pair events of an appended list split at the shifted counter. -/
theorem pairEvents_append {α : Type} (xs ys : List (Image α × Image α)) :
    ∀ start, pairEvents start (xs ++ ys)
      = pairEvents start xs ++ pairEvents (start + xs.length) ys := by
  induction xs with
  | nil => intro s; simp [pairEvents]
  | cons p t ih =>
    intro s
    simp only [List.cons_append, pairEvents, List.append_eq, ih (s + 1), List.length_cons,
      List.append_assoc]
    have h : s + 1 + t.length = s + (t.length + 1) := by omega
    rw [h]

/-- The partitioner trace is exactly the pair events, from counter 0, of
the zipped tile pairs of all files in order. -/
theorem process_data_eq_pairEvents {α : Type} (files : List (Image α × Image α))
    (size stride : Nat) :
    _process_data files size stride = pairEvents 0 (allTilePairs files size stride) := by
  have key : ∀ (c : Nat) (evs : List (WriteEvent α)),
      files.foldl (fun acc fp =>
        ((tile_image fp.1 size stride).zip (tile_image fp.2 size stride)).foldl
          writePair acc) (c, evs)
      = (c + (allTilePairs files size stride).length,
         evs ++ pairEvents c (allTilePairs files size stride)) := by
    induction files with
    | nil => intro c evs; simp [allTilePairs, pairEvents]
    | cons fp fs ih =>
      intro c evs
      simp only [List.foldl_cons, writeFold_eq, ih, allTilePairs, List.flatMap_cons]
      rw [pairEvents_append]
      simp only [Prod.mk.injEq, List.length_append]
      exact ⟨by omega, by rw [List.append_assoc]⟩
  show (files.foldl (fun acc fp =>
      ((tile_image fp.1 size stride).zip (tile_image fp.2 size stride)).foldl
        writePair acc) ((0 : Nat), ([] : List (WriteEvent α)))).2 = _
  rw [key 0 []]
  simp

/-- The input-role events of a pair-event trace, with their names, are
the pairs of the counter range with the first tiles. -/
theorem pairEvents_filter_input {α : Type} (ps : List (Image α × Image α)) :
    ∀ start, (pairEvents start ps).filter (fun e => e.role == Role.input)
      = ((List.range' start ps.length).zip ps).map
          (fun np => ⟨Role.input, np.1, np.2.1⟩) := by
  induction ps with
  | nil => intro s; rfl
  | cons p t ih =>
    intro s
    show (⟨Role.input, s, p.1⟩ : WriteEvent α) ::
        (pairEvents (s + 1) t).filter (fun e => e.role == Role.input)
      = ((List.range' s (p :: t).length).zip (p :: t)).map
          (fun np => ⟨Role.input, np.1, np.2.1⟩)
    rw [ih (s + 1)]
    simp only [List.length_cons, List.range'_succ, List.zip_cons_cons, List.map_cons]

/-- The output-role events of a pair-event trace, with their names, are
the pairs of the counter range with the second tiles. -/
theorem pairEvents_filter_output {α : Type} (ps : List (Image α × Image α)) :
    ∀ start, (pairEvents start ps).filter (fun e => e.role == Role.output)
      = ((List.range' start ps.length).zip ps).map
          (fun np => ⟨Role.output, np.1, np.2.2⟩) := by
  induction ps with
  | nil => intro s; rfl
  | cons p t ih =>
    intro s
    show (⟨Role.output, s, p.2⟩ : WriteEvent α) ::
        (pairEvents (s + 1) t).filter (fun e => e.role == Role.output)
      = ((List.range' s (p :: t).length).zip (p :: t)).map
          (fun np => ⟨Role.output, np.1, np.2.2⟩)
    rw [ih (s + 1)]
    simp only [List.length_cons, List.range'_succ, List.zip_cons_cons, List.map_cons]

/-- The length of a pair-event trace is twice the number of pairs. -/
theorem pairEvents_length {α : Type} (ps : List (Image α × Image α)) :
    ∀ start, (pairEvents start ps).length = 2 * ps.length := by
  induction ps with
  | nil => intro s; rfl
  | cons p t ih =>
    intro s
    simp only [pairEvents, List.length_cons, ih (s + 1), List.length_cons]
    omega

/-- C6: within a partition the written files are named by one shared
zero-based counter: the input-role events carry names 0, 1, 2, ... in
order, the output-role events carry the same names, and the tile written
as the Nth input file and the tile written as the Nth output file are the
two components of the Nth zipped tile pair - the same source file and the
same tile-list position. -/
theorem c6_sequential_naming (α : Type) (files : List (Image α × Image α))
    (size stride : Nat) :
    ((_process_data files size stride).filter (fun e => e.role == Role.input)).map
        (fun e => e.name) = List.range (allTilePairs files size stride).length ∧
    ((_process_data files size stride).filter (fun e => e.role == Role.output)).map
        (fun e => e.name) = List.range (allTilePairs files size stride).length ∧
    ((_process_data files size stride).filter (fun e => e.role == Role.input)).map
        (fun e => e.tile) = (allTilePairs files size stride).map (fun p => p.1) ∧
    ((_process_data files size stride).filter (fun e => e.role == Role.output)).map
        (fun e => e.tile) = (allTilePairs files size stride).map (fun p => p.2) := by
  have hchar := process_data_eq_pairEvents files size stride
  have hlen : (List.range' 0 (allTilePairs files size stride).length).length
      = (allTilePairs files size stride).length := List.length_range' _ _ _
  refine ⟨?_, ?_, ?_, ?_⟩
  · rw [hchar, pairEvents_filter_input _ 0, List.map_map]
    rw [show ((fun e : WriteEvent α => e.name) ∘
        (fun np : Nat × (Image α × Image α) => (⟨Role.input, np.1, np.2.1⟩ : WriteEvent α)))
      = Prod.fst from rfl]
    rw [List.map_fst_zip _ _ (le_of_eq hlen), ← List.range_eq_range']
  · rw [hchar, pairEvents_filter_output _ 0, List.map_map]
    rw [show ((fun e : WriteEvent α => e.name) ∘
        (fun np : Nat × (Image α × Image α) => (⟨Role.output, np.1, np.2.2⟩ : WriteEvent α)))
      = Prod.fst from rfl]
    rw [List.map_fst_zip _ _ (le_of_eq hlen), ← List.range_eq_range']
  · rw [hchar, pairEvents_filter_input _ 0, List.map_map]
    rw [show ((fun e : WriteEvent α => e.tile) ∘
        (fun np : Nat × (Image α × Image α) => (⟨Role.input, np.1, np.2.1⟩ : WriteEvent α)))
      = ((fun p : Image α × Image α => p.1) ∘ Prod.snd) from rfl]
    rw [← List.map_map, List.map_snd_zip _ _ (ge_of_eq hlen)]
  · rw [hchar, pairEvents_filter_output _ 0, List.map_map]
    rw [show ((fun e : WriteEvent α => e.tile) ∘
        (fun np : Nat × (Image α × Image α) => (⟨Role.output, np.1, np.2.2⟩ : WriteEvent α)))
      = ((fun p : Image α × Image α => p.2) ∘ Prod.snd) from rfl]
    rw [← List.map_map, List.map_snd_zip _ _ (ge_of_eq hlen)]

/-- Counterexample for C8: the try/except wrapper also swallows a
permission-denied failure, returning success instead of surfacing the
error, contrary to the claim that only already-exists is ignored. -/
theorem c8_counterexample :
    _makedirs (Except.error DirCreateError.permissionDenied) = Except.ok () ∧
    _makedirs (Except.error DirCreateError.permissionDenied) ≠
      Except.error DirCreateError.permissionDenied :=
  ⟨rfl, fun h => by cases h⟩

/-- C8 amended: directory creation is idempotent because the wrapper
swallows EVERY failure of the underlying call - already-exists,
permission-denied and any other - always returning success; no creation
failure is surfaced to the caller. -/
theorem c8_amended_all_errors_swallowed (result : Except DirCreateError Unit) :
    _makedirs result = Except.ok () := by
  cases result <;> rfl

/-- Counterexample for C9: a 2 x 2 input image paired with a 1 x 1 label
image (mismatched dimensions), processed with size 1 and stride 1,
completes instead of failing: tiling each image against its own
dimensions never reads out of bounds, the zip silently truncates the four
input tiles against the single label tile, and exactly one tile pair
(two write events) is produced. -/
theorem c9_counterexample :
    (_process_data [(mkImage 2 2 pixelEx, mkImage 1 1 pixelEx)] 1 1).length = 2 ∧
    (tile_image (mkImage 2 2 pixelEx) 1 1).length = 4 ∧
    (tile_image (mkImage 1 1 pixelEx) 1 1).length = 1 :=
  ⟨rfl, rfl, rfl⟩

/-- C9 amended: a dimension mismatch between the two images of a pair is
unhandled but causes no failure: each image is tiled by its own
dimensions (slicing is take/drop, total by construction), the zipped tile
list truncates to the shorter side, and processing the pair writes
exactly two events per surviving pair. -/
theorem c9_amended_mismatch_truncates (α : Type) (imA imB : Image α)
    (size stride : Nat) :
    (allTilePairs [(imA, imB)] size stride).length =
      min (tile_image imA size stride).length (tile_image imB size stride).length ∧
    (_process_data [(imA, imB)] size stride).length =
      2 * min (tile_image imA size stride).length (tile_image imB size stride).length := by
  have h1 : allTilePairs [(imA, imB)] size stride
      = (tile_image imA size stride).zip (tile_image imB size stride) := by
    simp [allTilePairs]
  constructor
  · rw [h1, List.length_zip]
  · rw [process_data_eq_pairEvents, pairEvents_length, h1, List.length_zip]

/-- C10: evaluated at a concrete base path, the second generator of the
pair returned by make_input_output_generator - the one whose batches are
one-hot encoded and yielded as the output element - reads the INPUT
subdirectory of the partition, not the OUTPUT subdirectory: the source
builds it from input_path and never uses the computed output_path. -/
theorem c10_output_generator_reads_input_dir :
    (make_input_output_generator basePathEx 32).2.path = pathJoin basePathEx INPUT ∧
    (make_input_output_generator basePathEx 32).2.path ≠ pathJoin basePathEx OUTPUT ∧
    (make_input_output_generator basePathEx 32).1.path = pathJoin basePathEx INPUT :=
  ⟨rfl, by decide, rfl⟩

end ProcessData
